import Mathlib

/-!
Shallow embedding of the reconciliation core of `nudl` (Node Usb Device
Labeler).  The definitions below are translated from `main.go`: the label-map
operations `filter` and `merge`, the key codec (`sPrintLabelKey`, `hexKey`,
`humanReadableKey`, `genKey`), the inventory collector (`createLabels`,
`scanUSB`), the shutdown cleanup loop of `cleanUp`, and the select/mutex
scheduler of `Main`.  Go maps are modelled as association lists with
map-update/delete semantics; Go strings as Lean `String` with byte length
(`goLen`) where the source uses `len`.
-/

namespace Nudl

/-- Go `len(s)`: the UTF-8 byte length of a string.  Each rune contributes its
UTF-8 encoded size. -/
def utf8Len (c : Char) : Nat :=
  if c.toNat < 128 then 1
  else if c.toNat < 2048 then 2
  else if c.toNat < 65536 then 3
  else 4

/-- Go `len` on a string: sum of the byte sizes of its runes. -/
def goLen (s : String) : Nat :=
  (s.data.map utf8Len).sum

/-- Go `strings.HasPrefix(s, pre)` (byte prefix; for valid UTF-8 this is rune
prefix). -/
def goHasPrefix (pre s : String) : Bool :=
  pre.data.isPrefixOf s.data

/-- Go `strings.Contains(s, sub)`: `sub` occurs as a contiguous substring. -/
def goContains (s sub : String) : Bool :=
  infixB sub.data s.data
where
  infixB (sub : List Char) : List Char → Bool
    | [] => sub.isEmpty
    | c :: rest => sub.isPrefixOf (c :: rest) || infixB sub rest

/-- ASCII lower-casing of a rune, modelling `strings.ToLower` on the ASCII
range (the configuration strings and USB descriptions involved are ASCII). -/
def charLower (c : Char) : Char :=
  if 65 ≤ c.toNat ∧ c.toNat ≤ 90 then Char.ofNat (c.toNat + 32) else c

/-- Go `strings.ToLower`. -/
def goToLower (s : String) : String :=
  String.mk (s.data.map charLower)

/-- Go `fmt.Sprintf("%t", b)`. -/
def goBool (b : Bool) : String :=
  if b then "true" else "false"

/-- `type labels map[string]string`, modelled as an association list. -/
abbrev labels := List (String × String)

/-- Go map read `m[k]`: the value stored at `k`, if any. -/
def lookup : labels → String → Option String
  | [], _ => none
  | (k, v) :: rest, q => if q = k then some v else lookup rest q

/-- Go `delete(m, k)`. -/
def eraseKey : labels → String → labels
  | [], _ => []
  | (k, v) :: rest, q => if k = q then eraseKey rest q else (k, v) :: eraseKey rest q

/-- Go map write `m[k] = v`. -/
def insertKV : labels → String → String → labels
  | [], q, v => [(q, v)]
  | (k, w) :: rest, q, v =>
    if k = q then (q, v) :: rest else (k, w) :: insertKV rest q v

/-- The key set of a Go map. -/
def keys (m : labels) : List String :=
  m.map Prod.fst

/-- Two Go maps are equal as maps: every read agrees. -/
def mapEquiv (a b : labels) : Prop :=
  ∀ k, lookup a k = lookup b k

/-- `filter` (main.go): keep the entries whose key starts with the label
prefix.  The source reads the global `*labelPrefix`; here it is the explicit
argument `pre`. -/
def filter (pre : String) (m : labels) : labels :=
  m.filter (fun p => goHasPrefix pre p.1)

/-- `merge` (main.go): delete every key of `filter(l)` that is absent from
`ul`, then write every entry of `ul` into `l`. -/
def merge (pre : String) (l : labels) (ul : labels) : labels :=
  let l2 := (filter pre l).foldl
    (fun acc p => if (lookup ul p.1).isSome then acc else eraseKey acc p.1) l
  ul.foldl (fun acc p => insertKV acc p.1 p.2) l2

/-- The label transformation performed by `cleanUp` (main.go): iterate over
the node's labels and delete every key that starts with the label prefix. -/
def cleanLabels (pre : String) (l : labels) : labels :=
  l.foldl (fun acc p => if goHasPrefix pre p.1 then eraseKey acc p.1 else acc) l

/-! ### Lookup characterisation of the map operations -/

theorem lookup_eraseKey (m : labels) (k q : String) :
    lookup (eraseKey m k) q = if q = k then none else lookup m q := by
  induction m with
  | nil => simp [eraseKey, lookup]
  | cons p rest ih =>
    obtain ⟨a, b⟩ := p
    by_cases hak : a = k <;> by_cases hqa : q = a <;>
      simp_all [eraseKey, lookup]

theorem lookup_insertKV (m : labels) (k v : String) (q : String) :
    lookup (insertKV m k v) q = if q = k then some v else lookup m q := by
  induction m with
  | nil => simp [insertKV, lookup]
  | cons p rest ih =>
    obtain ⟨a, b⟩ := p
    by_cases hak : a = k <;> by_cases hqa : q = a <;>
      simp_all [insertKV, lookup]

@[simp] theorem keys_nil : keys [] = [] := rfl

@[simp] theorem keys_cons (p : String × String) (m : labels) :
    keys (p :: m) = p.1 :: keys m := rfl

theorem lookup_eq_none_iff (m : labels) (q : String) :
    lookup m q = none ↔ q ∉ keys m := by
  induction m with
  | nil => simp [lookup, keys]
  | cons p rest ih =>
    obtain ⟨a, b⟩ := p
    by_cases hqa : q = a <;> simp_all [lookup, keys]

theorem mem_keys_of_lookup (m : labels) (q v : String)
    (h : lookup m q = some v) : q ∈ keys m := by
  by_contra hq
  rw [← lookup_eq_none_iff] at hq
  simp [hq] at h

theorem lookup_isSome_iff (m : labels) (q : String) :
    (lookup m q).isSome = true ↔ q ∈ keys m := by
  cases h : lookup m q with
  | none => simp [(lookup_eq_none_iff m q).mp h]
  | some v => simp [mem_keys_of_lookup m q v h]

theorem mem_keys_filter (pre : String) (m : labels) (q : String) :
    q ∈ keys (filter pre m) ↔ (goHasPrefix pre q = true ∧ q ∈ keys m) := by
  constructor
  · intro h
    simp only [keys, filter, List.mem_map] at h
    obtain ⟨x, hx, hxq⟩ := h
    rw [List.mem_filter] at hx
    subst hxq
    exact ⟨hx.2, List.mem_map.mpr ⟨x, hx.1, rfl⟩⟩
  · intro h
    obtain ⟨h1, h2⟩ := h
    simp only [keys, List.mem_map] at h2
    obtain ⟨x, hx, hxq⟩ := h2
    subst hxq
    exact List.mem_map.mpr ⟨x, List.mem_filter.mpr ⟨hx, h1⟩, rfl⟩

theorem goHasPrefix_mono (pre s k : String)
    (h : goHasPrefix (pre ++ s) k = true) : goHasPrefix pre k = true := by
  unfold goHasPrefix at *
  rw [List.isPrefixOf_iff_prefix] at *
  have h1 : pre.data <+: (pre ++ s).data := by
    rw [String.data_append]
    exact List.prefix_append _ _
  exact h1.trans h

/-- The deletion loop of `merge`: folding the conditional `delete` over `xs`. -/
theorem lookup_foldl_del (ul xs m : labels) (q : String) :
    lookup (xs.foldl
      (fun acc p => if (lookup ul p.1).isSome then acc else eraseKey acc p.1) m) q
    = if q ∈ keys xs ∧ lookup ul q = none then none else lookup m q := by
  induction xs generalizing m with
  | nil => simp [keys]
  | cons p rest ih =>
    obtain ⟨a, b⟩ := p
    rw [List.foldl_cons, ih]
    by_cases hqa : q = a
    · subst hqa
      cases hul : lookup ul q with
      | none => simp [hul, lookup_eraseKey]
      | some w => simp [hul, lookup_eraseKey]
    · cases hul : lookup ul q with
      | none =>
        by_cases hmem : q ∈ keys rest
        · simp [hul, hmem, lookup_eraseKey, hqa]
        · by_cases ha : (lookup ul a).isSome <;>
            simp [hul, hmem, hqa, ha, lookup_eraseKey]
      | some w =>
        by_cases ha : (lookup ul a).isSome <;>
          simp [hul, hqa, ha, lookup_eraseKey]

/-- The insertion loop of `merge`: folding the map write over `ul`. -/
theorem lookup_foldl_ins (ul : labels) (m : labels) (q : String)
    (hul : (keys ul).Nodup) :
    lookup (ul.foldl (fun acc p => insertKV acc p.1 p.2) m) q
    = match lookup ul q with
      | some v => some v
      | none => lookup m q := by
  induction ul generalizing m with
  | nil => simp [lookup]
  | cons p rest ih =>
    obtain ⟨a, b⟩ := p
    rw [List.foldl_cons]
    have hnd : a ∉ keys rest ∧ (keys rest).Nodup := by
      simpa [keys] using hul
    rw [ih _ hnd.2]
    by_cases hqa : q = a
    · subst hqa
      have hq : lookup rest q = none := (lookup_eq_none_iff rest q).mpr hnd.1
      simp [lookup, hq, lookup_insertKV]
    · cases hr : lookup rest q with
      | none => simp [lookup, hqa, hr, lookup_insertKV]
      | some w => simp [lookup, hqa, hr, lookup_insertKV]

/-- Pointwise behaviour of `merge`: keys of the inventory take the inventory
value, other keys under the prefix are deleted, and everything else reads
from the existing map. -/
theorem lookup_merge (pre : String) (l ul : labels) (q : String)
    (hul : (keys ul).Nodup) :
    lookup (merge pre l ul) q
    = match lookup ul q with
      | some v => some v
      | none => if goHasPrefix pre q then none else lookup l q := by
  unfold merge
  rw [lookup_foldl_ins _ _ _ hul, lookup_foldl_del]
  cases h : lookup ul q with
  | some v => simp
  | none =>
    simp only
    by_cases hp : goHasPrefix pre q
    · by_cases hmem : q ∈ keys l
      · simp [mem_keys_filter, hp, hmem]
      · simpa [mem_keys_filter, hp, hmem] using (lookup_eq_none_iff l q).mpr hmem
    · simp [mem_keys_filter, hp]

/-- The deletion loop of `cleanUp`: iterating over the labels and deleting
every key that carries the prefix. -/
theorem lookup_foldl_clean (pre : String) (xs m : labels) (q : String) :
    lookup (xs.foldl
      (fun acc p => if goHasPrefix pre p.1 then eraseKey acc p.1 else acc) m) q
    = if q ∈ keys xs ∧ goHasPrefix pre q = true then none else lookup m q := by
  induction xs generalizing m with
  | nil => simp
  | cons p rest ih =>
    obtain ⟨a, b⟩ := p
    rw [List.foldl_cons, ih]
    by_cases hqa : q = a
    · subst hqa
      by_cases hp : goHasPrefix pre q <;> simp [hp, lookup_eraseKey]
    · by_cases hp : goHasPrefix pre q
      · by_cases hmem : q ∈ keys rest
        · simp [hp, hmem]
        · by_cases hpa : goHasPrefix pre a <;>
            simp [hp, hmem, hqa, hpa, lookup_eraseKey]
      · by_cases hpa : goHasPrefix pre a <;>
          simp [hp, hqa, hpa, lookup_eraseKey]

/-! ### Claims about the label merger and cleanup -/

/-- C1 (counterexample): the claim quantifies foreign keys as those not
beginning with `labelPrefix ++ "/"`.  The key `"nudl.squat.ai.f"` does not
begin with `"nudl.squat.ai/"`, yet `merge` (which filters by the bare prefix
`"nudl.squat.ai"`) deletes it when the inventory is empty. -/
theorem foreign_key_prefix_slash_cex :
    goHasPrefix ("nudl.squat.ai" ++ "/") "nudl.squat.ai.f" = false
    ∧ lookup [("nudl.squat.ai.f", "v")] "nudl.squat.ai.f" = some "v"
    ∧ lookup (merge "nudl.squat.ai" [("nudl.squat.ai.f", "v")] [])
        "nudl.squat.ai.f" = none := by
  refine ⟨by decide, by decide, by decide⟩

/-- C1 (amended): for every inventory `I` whose keys all carry the managed
prefix `pre ++ "/"`, every key `f` of `E` that does not begin with the bare
configured prefix `pre` is present in `merge pre E I` with its value
unchanged. -/
theorem merge_preserves_foreign_keys (pre : String) (E I : labels) (f : String)
    (hI : (keys I).Nodup)
    (hIkeys : ∀ q ∈ keys I, goHasPrefix (pre ++ "/") q = true)
    (hf : goHasPrefix pre f = false) :
    lookup (merge pre E I) f = lookup E f := by
  rw [lookup_merge _ _ _ _ hI]
  cases h : lookup I f with
  | some v =>
    exfalso
    have hmem := mem_keys_of_lookup I f v h
    have hp := goHasPrefix_mono pre "/" f (hIkeys f hmem)
    rw [hf] at hp
    exact Bool.false_ne_true hp
  | none => simp [hf]

/-- Witness for the amended C1 at a concrete input. -/
theorem merge_preserves_foreign_keys_witness :
    lookup (merge "nudl.squat.ai" [("app", "1")]
        [("nudl.squat.ai/8086_0044", "true")]) "app"
      = lookup [("app", "1")] "app" :=
  merge_preserves_foreign_keys "nudl.squat.ai" [("app", "1")]
    [("nudl.squat.ai/8086_0044", "true")] "app"
    (by decide) (by decide) (by decide)

/-- C2: `merge` is idempotent — merging the same inventory twice yields the
same map (as a key/value mapping) as merging it once. -/
theorem merge_idempotent (pre : String) (E I : labels)
    (hI : (keys I).Nodup) :
    mapEquiv (merge pre (merge pre E I) I) (merge pre E I) := by
  intro q
  rw [lookup_merge _ _ _ _ hI, lookup_merge _ _ _ _ hI]
  cases h : lookup I q with
  | some v => rfl
  | none =>
    by_cases hp : goHasPrefix pre q
    · simp [hp]
    · simp [hp, lookup_merge _ _ _ _ hI, h]

/-- Witness for C2 at a concrete input and key. -/
theorem merge_idempotent_witness :
    lookup
      (merge "nudl.squat.ai"
        (merge "nudl.squat.ai" [("app", "1"), ("nudl.squat.ai/old", "true")]
          [("nudl.squat.ai/8086_0044", "true")])
        [("nudl.squat.ai/8086_0044", "true")]) "nudl.squat.ai/old"
    = lookup (merge "nudl.squat.ai" [("app", "1"), ("nudl.squat.ai/old", "true")]
        [("nudl.squat.ai/8086_0044", "true")]) "nudl.squat.ai/old" :=
  merge_idempotent "nudl.squat.ai" [("app", "1"), ("nudl.squat.ai/old", "true")]
    [("nudl.squat.ai/8086_0044", "true")] (by decide) "nudl.squat.ai/old"

/-- C3: when every inventory key carries the managed prefix `pre ++ "/"`,
the managed keys of the merged map are exactly the inventory keys; in
particular a managed key absent from the inventory is absent from the
merged map. -/
theorem merge_managed_equals_inventory (pre : String) (E I : labels)
    (hI : (keys I).Nodup)
    (hIkeys : ∀ q ∈ keys I, goHasPrefix (pre ++ "/") q = true) :
    (∀ k, (goHasPrefix (pre ++ "/") k = true
            ∧ (lookup (merge pre E I) k).isSome = true)
        ↔ k ∈ keys I)
    ∧ (∀ m, goHasPrefix (pre ++ "/") m = true → m ∉ keys I →
        lookup (merge pre E I) m = none) := by
  constructor
  · intro k
    constructor
    · intro hk
      obtain ⟨hk1, hk2⟩ := hk
      rw [lookup_merge _ _ _ _ hI] at hk2
      cases h : lookup I k with
      | some v => exact mem_keys_of_lookup I k v h
      | none =>
        rw [h] at hk2
        have hp : goHasPrefix pre k = true := goHasPrefix_mono pre "/" k hk1
        simp [hp] at hk2
    · intro hk
      refine ⟨hIkeys k hk, ?_⟩
      rw [lookup_merge _ _ _ _ hI]
      cases h : lookup I k with
      | some v => rfl
      | none => exact absurd ((lookup_eq_none_iff I k).mp h) (by simp [hk])
  · intro m hm hmem
    rw [lookup_merge _ _ _ _ hI]
    cases h : lookup I m with
    | some v => exact absurd (mem_keys_of_lookup I m v h) hmem
    | none => simp [goHasPrefix_mono pre "/" m hm]

/-- Witness for C3 at a concrete input: the stale managed key
`nudl.squat.ai/old` is deleted by the merge. -/
theorem merge_managed_equals_inventory_witness :
    lookup (merge "nudl.squat.ai"
      [("app", "1"), ("nudl.squat.ai/old", "true")]
      [("nudl.squat.ai/8086_0044", "true")]) "nudl.squat.ai/old" = none :=
  (merge_managed_equals_inventory "nudl.squat.ai"
    [("app", "1"), ("nudl.squat.ai/old", "true")]
    [("nudl.squat.ai/8086_0044", "true")] (by decide) (by decide)).2
    "nudl.squat.ai/old" (by decide) (by decide)

/-- C8: the label transformation of `cleanUp` agrees pointwise with
`merge` against an empty inventory: every key under the configured prefix
is removed and every other key is untouched. -/
theorem cleanUp_is_degenerate_merge (pre : String) (l : labels) :
    mapEquiv (cleanLabels pre l) (merge pre l [])
    ∧ ∀ k, lookup (cleanLabels pre l) k
        = if goHasPrefix pre k then none else lookup l k := by
  have hchar : ∀ k, lookup (cleanLabels pre l) k
      = if goHasPrefix pre k then none else lookup l k := by
    intro k
    unfold cleanLabels
    rw [lookup_foldl_clean]
    by_cases hp : goHasPrefix pre k
    · by_cases hmem : k ∈ keys l
      · simp [hp, hmem]
      · simp [hp, hmem, (lookup_eq_none_iff l k).mpr hmem]
    · simp [hp]
  refine ⟨?_, hchar⟩
  intro k
  rw [hchar k, lookup_merge pre l [] k (by simp)]
  simp [lookup]

/-! ### Configuration, device descriptors and the key codec -/

/-- The command-line configuration that the key codec and the collector read
through global flag pointers in the source. -/
structure Config where
  humanReadable : Bool
  labelPrefix : String
  noContain : List String
  only : List String

/-- `gousb.DeviceDesc`, restricted to the fields the program reads.  `Vendor`
and `Product` are `gousb.ID` (uint16) values, modelled as `Nat` and reduced
mod 2^16 where they are printed. -/
structure DeviceDesc where
  vendor : Nat
  product : Nat

/-- One entry of the external `usbid.Vendors` name-lookup collaborator: the
vendor name and the vendor's product-name table.  A vendor id absent from
the table behaves as the zero value (empty name, empty product table), per
the specification's external-collaborator contract (resolve names or report
not-found). -/
structure UsbVendor where
  name : String
  products : List (Nat × String)

/-- The external `usbid.Vendors` table. -/
abbrev UsbidTable := List (Nat × UsbVendor)

/-- One lower-case hex digit (`%x`). -/
def hexDigit (n : Nat) : Char :=
  if n < 10 then Char.ofNat (48 + n) else Char.ofNat (87 + n)

/-- `fmt.Sprintf("%04x", n)` for a uint16 value: exactly four lower-case hex
digits. -/
def hex4 (n : Nat) : String :=
  String.mk [hexDigit (n / 4096 % 16), hexDigit (n / 256 % 16),
             hexDigit (n / 16 % 16), hexDigit (n % 16)]

/-- `sPrintLabelKey` (main.go): `fmt.Sprintf("%s/%s", *labelPrefix, k)`. -/
def sPrintLabelKey (pre k : String) : String :=
  pre ++ "/" ++ k

/-- `hexKey` (main.go): `desc.Vendor.String() ++ "_" ++ desc.Product.String()`,
where `gousb.ID.String` prints `%04x` of the 16-bit id. -/
def hexKey (d : DeviceDesc) : String :=
  hex4 (d.vendor % 65536) ++ "_" ++ hex4 (d.product % 65536)

/-- The character class `[A-Za-z0-9._-]`; its complement is what `regTrim`
(`[^\w._-]` with RE2's ASCII `\w`) replaces. -/
def allowedChar (c : Char) : Bool :=
  (65 ≤ c.toNat && c.toNat ≤ 90) || (97 ≤ c.toNat && c.toNat ≤ 122) ||
    (48 ≤ c.toNat && c.toNat ≤ 57) || c == '.' || c == '_' || c == '-'

/-- `regTrim.ReplaceAll(s, "-")`: replace every rune outside `[A-Za-z0-9._-]`
with a dash. -/
def sanitize (s : String) : String :=
  String.mk (s.data.map (fun c => if allowedChar c then c else '-'))

/-- `humanReadableKey` (main.go) on its non-crashing domain: resolve the
vendor entry, fail when the product name is missing from it, otherwise join
the two sanitized names with an underscore.  The logger argument is dropped
and the Go error becomes `none`.  Caveat: `usbid.Vendors` in gousb v1.1.1 is
`map[gousb.ID]*Vendor`, so for a vendor id absent from the table the code
dereferences a nil pointer at `vendor.Name` and crashes; this `Option`
version substitutes the zero-value vendor there and is only used for
properties whose truth does not depend on that crash path (when the result
is `some k`, the vendor and product are both present and the code agrees
exactly).  `humanReadableKeyPtr` below models the table at its real pointer
type, crash included. -/
def humanReadableKey (table : UsbidTable) (d : DeviceDesc) : Option String :=
  let vendor := (List.lookup d.vendor table).getD ⟨"", []⟩
  match List.lookup d.product vendor.products with
  | none => none
  | some deviceName => some (sanitize vendor.name ++ "_" ++ sanitize deviceName)

/-- The outcomes of the key-generation path once `usbid.Vendors` is modelled
at its real type `map[gousb.ID]*Vendor`: a nil-pointer crash, the handled
name-not-found error, or a key. -/
inductive KeyOutcome where
  | crash
  | nameNotFound
  | ok (k : String)
deriving DecidableEq

/-- `humanReadableKey` (main.go) with the external table at its real pointer
type: looking up an absent vendor id yields a nil `*Vendor`, and the field
read `vendor.Name` then crashes the process; a present vendor whose product
table lacks the product id is the handled error path; a resolved vendor and
product give the sanitized joined key. -/
def humanReadableKeyPtr (table : UsbidTable) (d : DeviceDesc) : KeyOutcome :=
  match List.lookup d.vendor table with
  | none => KeyOutcome.crash
  | some vendor =>
    match List.lookup d.product vendor.products with
    | none => KeyOutcome.nameNotFound
    | some deviceName =>
      KeyOutcome.ok (sanitize vendor.name ++ "_" ++ sanitize deviceName)

/-- `genKey` (main.go) under the pointer-faithful name lookup: a crash in
`humanReadableKey` propagates (the program never recovers a panic); the
handled error falls back to the hex key, the over-length check falls back
to the hex key, and raw mode returns the hex key directly. -/
def genKeyPtr (cfg : Config) (table : UsbidTable) (d : DeviceDesc) : KeyOutcome :=
  if cfg.humanReadable then
    match humanReadableKeyPtr table d with
    | KeyOutcome.crash => KeyOutcome.crash
    | r =>
      let key := match r with
        | KeyOutcome.ok k => k
        | _ => hexKey d
      let labelKey := sPrintLabelKey cfg.labelPrefix key
      KeyOutcome.ok (if goLen labelKey > 63
        then sPrintLabelKey cfg.labelPrefix (hexKey d) else labelKey)
  else KeyOutcome.ok (sPrintLabelKey cfg.labelPrefix (hexKey d))

/-- `genKey` (main.go): the label key of a device; in human-readable mode it
falls back to the hex key when name resolution fails or when the full key
exceeds 63 bytes. -/
def genKey (cfg : Config) (table : UsbidTable) (d : DeviceDesc) : String :=
  if cfg.humanReadable then
    let key := match humanReadableKey table d with
      | some k => k
      | none => hexKey d
    let labelKey := sPrintLabelKey cfg.labelPrefix key
    if goLen labelKey > 63 then sPrintLabelKey cfg.labelPrefix (hexKey d)
    else labelKey
  else sPrintLabelKey cfg.labelPrefix (hexKey d)

/-- The callback built by `createLabels` (main.go): a device whose external
description contains one of the `--no-contain` strings case-insensitively is
dropped; otherwise its generated key is written with value `"true"`.
`describe` stands for the external `usbid.Describe`. -/
def createLabels (cfg : Config) (table : UsbidTable)
    (describe : DeviceDesc → String) (nl : labels) (d : DeviceDesc) : labels :=
  if cfg.noContain.any
      (fun str => goContains (goToLower (describe d)) (goToLower str)) then nl
  else insertKV nl (genKey cfg table d) "true"

/-- `scanUSB` (main.go): fold the `createLabels` callback over the scanned
devices; when `--only` entries exist, restrict the output to exactly those
keys, each valued by whether it was scanned. -/
def scanUSB (cfg : Config) (table : UsbidTable)
    (describe : DeviceDesc → String) (devices : List DeviceDesc) : labels :=
  let l := devices.foldl (createLabels cfg table describe) []
  if cfg.only.length > 0 then
    cfg.only.foldl
      (fun acc str =>
        insertKV acc (sPrintLabelKey cfg.labelPrefix str)
          (goBool (lookup l (sPrintLabelKey cfg.labelPrefix str)).isSome)) []
  else l

/-- The canonical-key invariant stated by the specification: only characters
in `[A-Za-z0-9._-]` plus a single `/`, and at most 63 bytes in total. -/
def validKey (k : String) : Prop :=
  (∀ c ∈ k.data, allowedChar c = true ∨ c = '/')
  ∧ k.data.count '/' = 1
  ∧ goLen k ≤ 63

/-! ### Facts about the codec's building blocks -/

theorem goLen_append (s t : String) : goLen (s ++ t) = goLen s + goLen t := by
  simp [goLen, String.data_append]

theorem utf8Len_hexDigit : ∀ n, n < 16 → utf8Len (hexDigit n) = 1 := by decide

theorem allowedChar_hexDigit : ∀ n, n < 16 → allowedChar (hexDigit n) = true := by
  decide

/-- The character class `[0-9a-f]` of the raw-mode key pattern. -/
def lowerHexDigit (c : Char) : Bool :=
  (48 ≤ c.toNat && c.toNat ≤ 57) || (97 ≤ c.toNat && c.toNat ≤ 102)

theorem lowerHexDigit_hexDigit :
    ∀ n, n < 16 → lowerHexDigit (hexDigit n) = true := by
  decide

theorem goLen_hex4 (n : Nat) : goLen (hex4 n) = 4 := by
  have h1 := utf8Len_hexDigit (n / 4096 % 16) (Nat.mod_lt _ (by omega))
  have h2 := utf8Len_hexDigit (n / 256 % 16) (Nat.mod_lt _ (by omega))
  have h3 := utf8Len_hexDigit (n / 16 % 16) (Nat.mod_lt _ (by omega))
  have h4 := utf8Len_hexDigit (n % 16) (Nat.mod_lt _ (by omega))
  simp [goLen, hex4, h1, h2, h3, h4]

theorem allowedChar_ne_slash (c : Char) (h : allowedChar c = true) : c ≠ '/' := by
  intro hc
  subst hc
  exact absurd h (by decide)

theorem count_slash_eq_zero (cs : List Char)
    (h : ∀ c ∈ cs, allowedChar c = true) : cs.count '/' = 0 := by
  rw [List.count_eq_zero]
  intro hmem
  exact allowedChar_ne_slash '/' (h _ hmem) rfl

theorem sanitize_allowed (s : String) :
    ∀ c ∈ (sanitize s).data, allowedChar c = true := by
  intro c hc
  simp only [sanitize, List.mem_map] at hc
  obtain ⟨a, _, ha⟩ := hc
  by_cases hall : allowedChar a
  · rw [← ha]; simp [hall]
  · rw [← ha]; simp [hall]; decide

theorem hex4_data (n : Nat) :
    (hex4 n).data = [hexDigit (n / 4096 % 16), hexDigit (n / 256 % 16),
      hexDigit (n / 16 % 16), hexDigit (n % 16)] := rfl

theorem hex4_allowed (n : Nat) :
    ∀ c ∈ (hex4 n).data, allowedChar c = true := by
  intro c hc
  have h1 := allowedChar_hexDigit (n / 4096 % 16) (Nat.mod_lt _ (by omega))
  have h2 := allowedChar_hexDigit (n / 256 % 16) (Nat.mod_lt _ (by omega))
  have h3 := allowedChar_hexDigit (n / 16 % 16) (Nat.mod_lt _ (by omega))
  have h4 := allowedChar_hexDigit (n % 16) (Nat.mod_lt _ (by omega))
  rw [hex4_data] at hc
  simp only [List.mem_cons, List.not_mem_nil, or_false] at hc
  rcases hc with rfl | rfl | rfl | rfl <;> assumption

theorem hexKey_allowed (d : DeviceDesc) :
    ∀ c ∈ (hexKey d).data, allowedChar c = true := by
  intro c hc
  simp only [hexKey, String.data_append] at hc
  rcases List.mem_append.mp hc with hc | hc
  · rcases List.mem_append.mp hc with hc | hc
    · exact hex4_allowed _ c hc
    · simp at hc; subst hc; decide
  · exact hex4_allowed _ c hc

theorem goLen_hexKey (d : DeviceDesc) : goLen (hexKey d) = 9 := by
  simp [hexKey, goLen_append, goLen_hex4]
  decide

theorem goLen_sPrint (pre tok : String) :
    goLen (sPrintLabelKey pre tok) = goLen pre + 1 + goLen tok := by
  simp [sPrintLabelKey, goLen_append]
  decide

theorem humanReadableKey_allowed (table : UsbidTable) (d : DeviceDesc)
    (k : String) (h : humanReadableKey table d = some k) :
    ∀ c ∈ k.data, allowedChar c = true := by
  simp only [humanReadableKey] at h
  cases hl : List.lookup d.product
      ((List.lookup d.vendor table).getD ⟨"", []⟩).products with
  | none => rw [hl] at h; exact absurd h (by simp)
  | some dn =>
    rw [hl] at h
    injection h with h2
    subst h2
    intro c hc
    simp only [String.data_append] at hc
    rcases List.mem_append.mp hc with hc | hc
    · rcases List.mem_append.mp hc with hc | hc
      · exact sanitize_allowed _ c hc
      · simp at hc; subst hc; decide
    · exact sanitize_allowed _ c hc

/-- A prefix-slash-token key is a valid canonical key once its pieces are
made of allowed characters and the total length fits. -/
theorem validKey_sPrint (pre tok : String)
    (hpre : ∀ c ∈ pre.data, allowedChar c = true)
    (htok : ∀ c ∈ tok.data, allowedChar c = true)
    (hlen : goLen (sPrintLabelKey pre tok) ≤ 63) :
    validKey (sPrintLabelKey pre tok) := by
  refine ⟨?_, ?_, hlen⟩
  · intro c hc
    simp only [sPrintLabelKey, String.data_append] at hc
    rcases List.mem_append.mp hc with hc | hc
    · rcases List.mem_append.mp hc with hc | hc
      · exact Or.inl (hpre c hc)
      · simp at hc; subst hc; exact Or.inr rfl
    · exact Or.inl (htok c hc)
  · simp only [sPrintLabelKey, String.data_append, List.count_append]
    rw [count_slash_eq_zero pre.data hpre, count_slash_eq_zero tok.data htok]
    decide

/-- Every key `genKey` produces is a valid canonical key, provided the
configured prefix is made of allowed characters (in particular contains no
slash) and leaves at least ten bytes of budget for the `/` plus hex token. -/
theorem genKey_valid (cfg : Config) (table : UsbidTable) (d : DeviceDesc)
    (hpre1 : ∀ c ∈ cfg.labelPrefix.data, allowedChar c = true)
    (hpre2 : goLen cfg.labelPrefix ≤ 53) :
    validKey (genKey cfg table d) := by
  have hraw : validKey (sPrintLabelKey cfg.labelPrefix (hexKey d)) := by
    apply validKey_sPrint _ _ hpre1 (hexKey_allowed d)
    rw [goLen_sPrint, goLen_hexKey]
    omega
  cases hm : cfg.humanReadable with
  | false => simpa [genKey, hm] using hraw
  | true =>
    cases hk : humanReadableKey table d with
    | none =>
      simp only [genKey, hm, hk, ite_true]
      rw [ite_self]
      exact hraw
    | some k =>
      simp only [genKey, hm, hk, ite_true]
      by_cases hlong : goLen (sPrintLabelKey cfg.labelPrefix k) > 63
      · simpa [hlong] using hraw
      · simp only [hlong, ite_false]
        apply validKey_sPrint _ _ hpre1 (humanReadableKey_allowed table d k hk)
        omega

/-- Keys written by the map-update loop come from the update or from the
original map. -/
theorem mem_keys_insertKV (m : labels) (a v q : String)
    (h : q ∈ keys (insertKV m a v)) : q = a ∨ q ∈ keys m := by
  induction m with
  | nil =>
    rcases List.mem_cons.mp h with h | h
    · exact Or.inl h
    · exact absurd h (List.not_mem_nil q)
  | cons p rest ih =>
    obtain ⟨x, y⟩ := p
    by_cases hx : x = a
    · have h2 : q ∈ keys ((a, v) :: rest) := by
        rw [show insertKV ((x, y) :: rest) a v = (a, v) :: rest from by
          simp [insertKV, hx]] at h
        exact h
      rcases List.mem_cons.mp h2 with h2 | h2
      · exact Or.inl h2
      · exact Or.inr (List.mem_cons.mpr (Or.inr h2))
    · have h2 : q ∈ keys ((x, y) :: insertKV rest a v) := by
        rw [show insertKV ((x, y) :: rest) a v = (x, y) :: insertKV rest a v from by
          simp [insertKV, hx]] at h
        exact h
      rcases List.mem_cons.mp h2 with h2 | h2
      · exact Or.inr (List.mem_cons.mpr (Or.inl h2))
      · rcases ih h2 with h3 | h3
        · exact Or.inl h3
        · exact Or.inr (List.mem_cons.mpr (Or.inr h3))

/-- Every key accumulated by the `createLabels` callback over a device scan
is either inherited from the accumulator or generated by `genKey`. -/
theorem mem_keys_scan_fold (cfg : Config) (table : UsbidTable)
    (describe : DeviceDesc → String) (devices : List DeviceDesc)
    (acc : labels) (q : String)
    (h : q ∈ keys (devices.foldl (createLabels cfg table describe) acc)) :
    q ∈ keys acc ∨ ∃ d ∈ devices, q = genKey cfg table d := by
  induction devices generalizing acc with
  | nil => exact Or.inl h
  | cons d rest ih =>
    rw [List.foldl_cons] at h
    rcases ih _ h with h2 | h2
    · by_cases hc : cfg.noContain.any
          (fun str => goContains (goToLower (describe d)) (goToLower str)) = true
      · rw [show createLabels cfg table describe acc d = acc from by
          simp [createLabels, hc]] at h2
        exact Or.inl h2
      · rw [show createLabels cfg table describe acc d
            = insertKV acc (genKey cfg table d) "true" from by
          simp [createLabels, hc]] at h2
        rcases mem_keys_insertKV _ _ _ _ h2 with h3 | h3
        · exact Or.inr ⟨d, List.mem_cons_self d rest, h3⟩
        · exact Or.inl h3
    · obtain ⟨e, he, hq⟩ := h2
      exact Or.inr ⟨e, List.mem_cons.mpr (Or.inr he), hq⟩

/-! ### Claims about the key codec and the inventory collector -/

/-- C4 (counterexample): an inclusion-list (`--only`) entry is placed into
the inventory verbatim behind the prefix; the entry `"bad key"` yields the
key `"nudl.squat.ai/bad key"`, which contains a space and therefore violates
the canonical-key invariant. -/
theorem collector_key_invariant_cex :
    lookup (scanUSB ⟨false, "nudl.squat.ai", [], ["bad key"]⟩ [] (fun _ => "") [])
      "nudl.squat.ai/bad key" = some "false"
    ∧ ¬ validKey "nudl.squat.ai/bad key" := by
  constructor
  · rfl
  · intro hv
    have h := hv.1 ' ' (by decide)
    exact absurd h (by decide)

/-- C4 (amended): with no inclusion list, every key the collector places in
the inventory is produced by `genKey` and satisfies the canonical-key
invariant, provided the configured prefix is made of allowed characters and
is at most 53 bytes. -/
theorem collector_key_invariant (cfg : Config) (table : UsbidTable)
    (describe : DeviceDesc → String) (devices : List DeviceDesc)
    (hpre1 : ∀ c ∈ cfg.labelPrefix.data, allowedChar c = true)
    (hpre2 : goLen cfg.labelPrefix ≤ 53)
    (honly : cfg.only = []) :
    ∀ q ∈ keys (scanUSB cfg table describe devices), validKey q := by
  intro q hq
  have hscan : scanUSB cfg table describe devices
      = devices.foldl (createLabels cfg table describe) [] := by
    simp [scanUSB, honly]
  rw [hscan] at hq
  rcases mem_keys_scan_fold cfg table describe devices [] q hq with h | h
  · exact absurd h (List.not_mem_nil q)
  · obtain ⟨d, _, rfl⟩ := h
    exact genKey_valid cfg table d hpre1 hpre2

/-- Witness for the amended C4 at a concrete input: the one key the scan of
a single device produces is valid. -/
theorem collector_key_invariant_witness :
    validKey "nudl.squat.ai/8086_0044" :=
  collector_key_invariant ⟨false, "nudl.squat.ai", [], []⟩ [] (fun _ => "")
    [⟨32902, 68⟩] (by decide) (by decide) rfl
    "nudl.squat.ai/8086_0044" (by decide)

/-- C5: in raw mode `genKey` always returns the prefix, a slash, and the
two 16-bit ids as exactly four lower-case hex digits each joined by an
underscore; the key stays within the 63-byte bound whenever the prefix
leaves room for the ten token bytes. -/
theorem genKey_raw_encoding (cfg : Config) (table : UsbidTable) (d : DeviceDesc)
    (hm : cfg.humanReadable = false)
    (hv : d.vendor < 65536) (hp : d.product < 65536)
    (hlen : goLen cfg.labelPrefix ≤ 53) :
    genKey cfg table d
      = sPrintLabelKey cfg.labelPrefix (hex4 d.vendor ++ "_" ++ hex4 d.product)
    ∧ (hex4 d.vendor).data.length = 4
    ∧ (hex4 d.product).data.length = 4
    ∧ (∀ c ∈ (hex4 d.vendor).data, lowerHexDigit c = true)
    ∧ (∀ c ∈ (hex4 d.product).data, lowerHexDigit c = true)
    ∧ goLen (genKey cfg table d) ≤ 63 := by
  have hg : genKey cfg table d
      = sPrintLabelKey cfg.labelPrefix (hex4 d.vendor ++ "_" ++ hex4 d.product) := by
    simp [genKey, hm, hexKey, Nat.mod_eq_of_lt hv, Nat.mod_eq_of_lt hp]
  have hhex : ∀ n : Nat, ∀ c ∈ (hex4 n).data, lowerHexDigit c = true := by
    intro n c hc
    have h1 := lowerHexDigit_hexDigit (n / 4096 % 16) (Nat.mod_lt _ (by omega))
    have h2 := lowerHexDigit_hexDigit (n / 256 % 16) (Nat.mod_lt _ (by omega))
    have h3 := lowerHexDigit_hexDigit (n / 16 % 16) (Nat.mod_lt _ (by omega))
    have h4 := lowerHexDigit_hexDigit (n % 16) (Nat.mod_lt _ (by omega))
    rw [hex4_data] at hc
    simp only [List.mem_cons, List.not_mem_nil, or_false] at hc
    rcases hc with rfl | rfl | rfl | rfl <;> assumption
  refine ⟨hg, rfl, rfl, hhex d.vendor, hhex d.product, ?_⟩
  rw [hg, goLen_sPrint, goLen_append, goLen_append, goLen_hex4, goLen_hex4]
  have hu : goLen "_" = 1 := by decide
  omega

/-- Witness for C5 at a concrete input (vendor 0x8086, product 0x0044). -/
theorem genKey_raw_encoding_witness :
    genKey ⟨false, "nudl.squat.ai", [], []⟩ [] ⟨32902, 68⟩
      = sPrintLabelKey "nudl.squat.ai" (hex4 32902 ++ "_" ++ hex4 68)
    ∧ goLen (genKey ⟨false, "nudl.squat.ai", [], []⟩ [] ⟨32902, 68⟩) ≤ 63 :=
  ⟨(genKey_raw_encoding ⟨false, "nudl.squat.ai", [], []⟩ [] ⟨32902, 68⟩
      rfl (by decide) (by decide) (by decide)).1,
   (genKey_raw_encoding ⟨false, "nudl.squat.ai", [], []⟩ [] ⟨32902, 68⟩
      rfl (by decide) (by decide) (by decide)).2.2.2.2.2⟩

/-- C6: in human-readable mode, when the resolved and sanitized full key
exceeds 63 bytes, `genKey` returns the hex key for the device instead of
truncating. -/
theorem genKey_keyTooLong_fallback (cfg : Config) (table : UsbidTable)
    (d : DeviceDesc) (k : String)
    (hm : cfg.humanReadable = true)
    (hres : humanReadableKey table d = some k)
    (hlong : goLen (sPrintLabelKey cfg.labelPrefix k) > 63) :
    genKey cfg table d = sPrintLabelKey cfg.labelPrefix (hexKey d) := by
  simp [genKey, hm, hres, hlong]

/-- Witness for C6: vendor 0x8086 with an over-long resolved product name
falls back to the hex key. -/
theorem genKey_keyTooLong_fallback_witness :
    genKey ⟨true, "nudl.squat.ai", [], []⟩
      [(32902, ⟨"Intel Corp.",
        [(512, "Extremely-Long-Product-Name-For-Testing-Limits")]⟩)]
      ⟨32902, 512⟩
      = sPrintLabelKey "nudl.squat.ai" (hexKey ⟨32902, 512⟩) :=
  genKey_keyTooLong_fallback ⟨true, "nudl.squat.ai", [], []⟩
    [(32902, ⟨"Intel Corp.",
      [(512, "Extremely-Long-Product-Name-For-Testing-Limits")]⟩)]
    ⟨32902, 512⟩
    "Intel-Corp._Extremely-Long-Product-Name-For-Testing-Limits"
    rfl (by decide) (by decide)

/-- C7 (code bug): with the `usbid.Vendors` table at its real pointer type,
an unresolved vendor id makes `humanReadableKey` dereference a nil vendor
and crash instead of falling back to the hex key — only an unresolved
product name with a resolved vendor takes the claimed graceful fallback to
the raw hex key. -/
theorem genKey_unresolved_vendor_crash :
    humanReadableKeyPtr [] ⟨0, 0⟩ = KeyOutcome.crash
    ∧ genKeyPtr ⟨true, "nudl.squat.ai", [], []⟩ [] ⟨0, 0⟩ = KeyOutcome.crash
    ∧ humanReadableKeyPtr [(32902, ⟨"Intel Corp.", []⟩)] ⟨32902, 68⟩
        = KeyOutcome.nameNotFound
    ∧ genKeyPtr ⟨true, "nudl.squat.ai", [], []⟩
        [(32902, ⟨"Intel Corp.", []⟩)] ⟨32902, 68⟩
      = KeyOutcome.ok (sPrintLabelKey "nudl.squat.ai" (hexKey ⟨32902, 68⟩)) := by
  refine ⟨rfl, rfl, rfl, ?_⟩
  decide

/-- C10: when the `--no-contain` list contains the empty string, every
device matches the exclusion filter, so with no inclusion list the scan
yields an empty inventory regardless of the attached devices. -/
theorem scanUSB_empty_string_filter (cfg : Config) (table : UsbidTable)
    (describe : DeviceDesc → String) (devices : List DeviceDesc)
    (h1 : "" ∈ cfg.noContain) (h2 : cfg.only = []) :
    scanUSB cfg table describe devices = [] := by
  have hinf : ∀ cs : List Char, goContains.infixB [] cs = true := by
    intro cs
    cases cs with
    | nil => rfl
    | cons c rest => simp [goContains.infixB, List.isPrefixOf]
  have hcond : ∀ d, cfg.noContain.any
      (fun str => goContains (goToLower (describe d)) (goToLower str)) = true := by
    intro d
    apply List.any_eq_true.mpr
    refine ⟨"", h1, ?_⟩
    simp only [goToLower, goContains]
    exact hinf _
  have hfold : ∀ (ds : List DeviceDesc) (acc : labels),
      ds.foldl (createLabels cfg table describe) acc = acc := by
    intro ds
    induction ds with
    | nil => intro acc; rfl
    | cons d rest ih =>
      intro acc
      rw [List.foldl_cons,
        show createLabels cfg table describe acc d = acc from by
          simp [createLabels, hcond d]]
      exact ih acc
  simp [scanUSB, h2, hfold]

/-- Witness for C10 at a concrete input: one device attached, empty string
among the exclusion filters. -/
theorem scanUSB_empty_string_filter_witness :
    scanUSB ⟨true, "nudl.squat.ai", ["hub", ""], []⟩ [] (fun _ => "USB Hub")
      [⟨1, 2⟩] = [] :=
  scanUSB_empty_string_filter ⟨true, "nudl.squat.ai", ["hub", ""], []⟩ []
    (fun _ => "USB Hub") [⟨1, 2⟩] (by decide) rfl

/-! ### The scheduler loop of Main

`Main` (main.go) runs a `for`/`select` loop: on every firing of
`time.After(*updateTime)` it calls `mutex.Lock()` — a blocking acquire —
and then spawns a goroutine that runs `scanAndLabel` and unlocks on exit.
The state below records whether the main goroutine is blocked inside that
`Lock`, how many worker goroutines currently hold the mutex, and how many
cycles have been started. -/

/-- Events observable by the select loop: the timer fires, or the running
cycle goroutine finishes (executing its deferred `Unlock`). -/
inductive Ev where
  | tick
  | done
deriving DecidableEq

/-- Scheduler state. -/
structure Sched where
  blocked : Bool
  running : Nat
  started : Nat
deriving DecidableEq

/-- One step of the select/mutex/goroutine protocol of `Main`.  A timer tick
is only received while the main goroutine sits in `select` (while it is
blocked in `Lock`, `time.After` is not being awaited, so no tick occurs);
if no worker holds the mutex, `Lock` succeeds and a cycle goroutine is
spawned, otherwise the main goroutine blocks.  When a cycle finishes it
unlocks; a blocked main goroutine then acquires the mutex at once and spawns
the next, deferred, cycle. -/
def step (s : Sched) : Ev → Sched
  | Ev.tick =>
    if s.blocked then s
    else if s.running = 0 then
      { blocked := false, running := s.running + 1, started := s.started + 1 }
    else { s with blocked := true }
  | Ev.done =>
    if s.running = 0 then s
    else if s.blocked then
      { blocked := false, running := s.running - 1 + 1, started := s.started + 1 }
    else { s with running := s.running - 1 }

/-- Run the loop over a sequence of events. -/
def run (s : Sched) (evs : List Ev) : Sched :=
  evs.foldl step s

/-- The loop's initial state: idle, nothing started. -/
def init : Sched :=
  ⟨false, 0, 0⟩

/-- C9 (counterexample): two timer ticks within one cycle's runtime lead to
two cycles being executed, not one — the second tick blocks the loop in
`mutex.Lock()` (a state change, not a no-op) and its cycle runs as soon as
the first one finishes. -/
theorem single_flight_skip_cex :
    (run init [Ev.tick, Ev.tick, Ev.done, Ev.done]).started = 2
    ∧ (step (run init [Ev.tick]) Ev.tick).blocked = true
    ∧ (run init [Ev.tick]).blocked = false := by
  refine ⟨rfl, rfl, rfl⟩

/-- C9 (amended): cycles never run concurrently (at most one worker holds
the mutex after any event sequence), and a tick that arrives while a cycle
is in flight starts no cycle immediately but blocks the scheduler, whose
deferred cycle then starts exactly when the running cycle completes. -/
theorem single_flight_defer :
    (∀ evs, (run init evs).running ≤ 1)
    ∧ (∀ s, s.running = 1 → s.blocked = false →
        (step s Ev.tick).started = s.started
        ∧ (step s Ev.tick).running = 1
        ∧ (step s Ev.tick).blocked = true
        ∧ (step (step s Ev.tick) Ev.done).started = s.started + 1
        ∧ (step (step s Ev.tick) Ev.done).running = 1) := by
  constructor
  · have hstep : ∀ s e, s.running ≤ 1 → (step s e).running ≤ 1 := by
      intro s e hs
      cases e <;> simp only [step] <;> split_ifs <;> (try simp) <;> omega
    have hrun : ∀ evs s, s.running ≤ 1 → (run s evs).running ≤ 1 := by
      intro evs
      induction evs with
      | nil => intro s hs; exact hs
      | cons e rest ih =>
        intro s hs
        exact ih _ (hstep s e hs)
    intro evs
    exact hrun evs init (by decide)
  · intro s h1 h2
    simp [step, h1, h2]

/-- Witness for the amended C9 at a concrete state. -/
theorem single_flight_defer_witness :
    (run init [Ev.tick]).running ≤ 1
    ∧ ((step (run init [Ev.tick]) Ev.tick).started = (run init [Ev.tick]).started
      ∧ (step (run init [Ev.tick]) Ev.tick).running = 1
      ∧ (step (run init [Ev.tick]) Ev.tick).blocked = true
      ∧ (step (step (run init [Ev.tick]) Ev.tick) Ev.done).started
          = (run init [Ev.tick]).started + 1
      ∧ (step (step (run init [Ev.tick]) Ev.tick) Ev.done).running = 1) :=
  ⟨single_flight_defer.1 [Ev.tick],
   single_flight_defer.2 (run init [Ev.tick]) rfl rfl⟩

end Nudl
